import Mathlib

/-!
Verification of the computational core of `adguard_activity.py`:
block segmentation (`build_blocks`), active sub-block detection
(`find_active_subblocks` plus the clamping loop in `main`), and the
day-chart bucketing (`_print_day_chart`).

Timestamps are modelled as integer microsecond counts (Python `datetime`
arithmetic is exact to the microsecond); durations in minutes are converted
with `usPerMinute`.  Python `int(x)` on the nonnegative exact quotients that
occur here is floor division, so Nat `/` is used.
-/

namespace AdguardActivity

/-- Microseconds per minute (`timedelta(minutes=1)` in the source). -/
def usPerMinute : Nat := 60000000

/-- Ceiling division on naturals, the exact value of `math.ceil(a / b)`
for nonnegative integers `a` and positive `b`. -/
def ceilDiv (a b : Nat) : Nat := (a + b - 1) / b

/-! ### Chart bucketer (`_print_day_chart`, src/adguard_activity.py lines 536-547) -/

/-- Bin size chosen by `_print_day_chart`:
`snap = max(gap_minutes, math.ceil((1440 / plot_w) / gap_minutes) * gap_minutes)`.
Over the rationals `ceil((1440/w)/g) = ceil(1440/(w*g))`, which `ceilDiv`
computes exactly. -/
def snapOf (plot_w gap_minutes : Nat) : Nat :=
  max gap_minutes (ceilDiv 1440 (plot_w * gap_minutes) * gap_minutes)

/-- Number of day-chart buckets: `n_bins = math.ceil(1440 / snap)`. -/
def nBins (snap : Nat) : Nat := ceilDiv 1440 snap

/-- Bucket index of one event, given as microseconds since its own midnight:
`b = min(int(mins / snap), n_bins - 1)` with `mins = (ts - midnight).total_seconds() / 60`. -/
def chartBucket (snap n_bins ts : Nat) : Nat :=
  min (ts / (usPerMinute * snap)) (n_bins - 1)

/-- The histogram built by `_print_day_chart`: `counts[b] += 1` for every event,
expressed as the per-index tally of the same bucketing function. -/
def dayCounts (events : List Nat) (snap : Nat) : List Nat :=
  (List.range (nBins snap)).map fun b =>
    (events.filter fun ts => chartBucket snap (nBins snap) ts == b).length

/-! ### Helper lemmas for histogram conservation -/

theorem sum_map_add_nat (l : List Nat) (f g : Nat → Nat) :
    (l.map fun b => f b + g b).sum = (l.map f).sum + (l.map g).sum := by
  induction l with
  | nil => simp
  | cons x xs ih => simp [ih]; omega

theorem sum_indicator_of_lt (k n : Nat) (hk : k < n) :
    ((List.range n).map fun b => if k == b then 1 else 0).sum = 1 := by
  induction n with
  | zero => omega
  | succ n ih =>
    rw [List.range_succ, List.map_append, List.sum_append]
    by_cases h : k = n
    · subst h
      have hz : ((List.range k).map fun b => if k == b then 1 else 0).sum = 0 := by
        apply List.sum_eq_zero
        intro x hx
        rcases List.mem_map.mp hx with ⟨b, hb, rfl⟩
        have : k ≠ b := by
          intro h; subst h; exact absurd (List.mem_range.mp hb) (lt_irrefl k)
        simp [this]
      simp
      simpa using hz
    · have hk' : k < n := by omega
      rw [ih hk']
      simp [h]

theorem sum_range_filter_count (key : Nat → Nat) (n : Nat) (l : List Nat)
    (h : ∀ x ∈ l, key x < n) :
    ((List.range n).map fun b => (l.filter fun x => key x == b).length).sum = l.length := by
  induction l with
  | nil => simp
  | cons x xs ih =>
    have hx : key x < n := h x (by simp)
    have hxs : ∀ y ∈ xs, key y < n := fun y hy => h y (by simp [hy])
    have hsplit : ∀ b : Nat,
        ((x :: xs).filter fun t => key t == b).length =
          (if key x == b then 1 else 0) + (xs.filter fun t => key t == b).length := by
      intro b
      by_cases hb : key x = b
      · simp [List.filter_cons, hb]; omega
      · simp [List.filter_cons, hb]
    calc ((List.range n).map fun b => ((x :: xs).filter fun t => key t == b).length).sum
        = ((List.range n).map fun b =>
            (if key x == b then 1 else 0) + (xs.filter fun t => key t == b).length).sum := by
          congr 1
          exact List.map_congr_left fun b _ => hsplit b
      _ = ((List.range n).map fun b => if key x == b then 1 else 0).sum +
            ((List.range n).map fun b => (xs.filter fun t => key t == b).length).sum :=
          sum_map_add_nat _ _ _
      _ = 1 + xs.length := by rw [sum_indicator_of_lt _ _ hx, ih hxs]
      _ = (x :: xs).length := by simp [Nat.add_comm]

/-- Every event's bucket index lies below the bucket count. -/
theorem chartBucket_lt (snap ts : Nat) (hs : 0 < snap) :
    chartBucket snap (nBins snap) ts < nBins snap := by
  have h1 : 1 ≤ nBins snap := by
    unfold nBins ceilDiv
    have : snap ≤ 1440 + snap - 1 := by omega
    exact Nat.one_le_div_iff hs |>.mpr this
  have : chartBucket snap (nBins snap) ts ≤ nBins snap - 1 := min_le_right _ _
  omega

/-! ### C9: histogram conservation -/

/-- C9 (confirmed): for every full-day event sequence (each event's
microseconds-since-its-own-midnight below one day) and positive bin width,
the day-chart histogram bucket counts sum to the number of input events:
each event increments exactly one bucket, at index
`floor(minutesSinceMidnight / binWidth)` clamped to the last bucket. -/
theorem dayCounts_conservation (events : List Nat) (snap : Nat)
    (hs : 0 < snap) (hday : ∀ ts ∈ events, ts < 1440 * usPerMinute) :
    (dayCounts events snap).sum = events.length := by
  unfold dayCounts
  exact sum_range_filter_count _ _ _ fun ts _ => chartBucket_lt snap ts hs

/-- Witness for C9 at a concrete input: three events on one day, 30-minute bins. -/
theorem dayCounts_conservation_witness :
    0 < 30 ∧ (∀ ts ∈ [0, 1800000000, 85000000000], ts < 1440 * usPerMinute) ∧
      (dayCounts [0, 1800000000, 85000000000] 30).sum = 3 :=
  ⟨by decide, by decide,
    dayCounts_conservation [0, 1800000000, 85000000000] 30 (by decide) (by decide)⟩

/-! ### C1: chart bucket-width selection -/

/-- C1 counterexample: at plot width 60 and gap threshold 5 the implementation
chooses bin width 25, not the 30 stated by the spec's worked example. -/
theorem snapOf_60_5_ne_30 : snapOf 60 5 = 25 ∧ (25 : Nat) ≠ 30 := by decide

/-- C1 (amended): at plot width 60 and gap threshold 5 the chosen bin width is
exactly 25: it fits (`ceil(1440/25) = 58 ≤ 60`) and it is the smallest positive
multiple of the gap threshold 5 whose bucket count fits in 60 columns. -/
theorem snapOf_60_5_correct :
    snapOf 60 5 = 25 ∧ nBins 25 = 58 ∧ 58 ≤ 60 ∧
      ∀ w : Nat, 0 < w → w % 5 = 0 → nBins w ≤ 60 → 25 ≤ w := by
  refine ⟨by decide, by decide, by decide, ?_⟩
  intro w hw hmul hfit
  by_contra hlt
  have hw' : w = 5 ∨ w = 10 ∨ w = 15 ∨ w = 20 := by omega
  rcases hw' with rfl | rfl | rfl | rfl <;> revert hfit <;> decide

/-- Witness for C1's amended minimality clause, instantiated at bin width 30. -/
theorem snapOf_60_5_correct_witness :
    0 < 30 ∧ 30 % 5 = 0 ∧ nBins 30 ≤ 60 ∧ 25 ≤ 30 :=
  ⟨by decide, by decide, by decide,
    snapOf_60_5_correct.2.2.2 30 (by decide) (by decide) (by decide)⟩

/-! ### Active sub-block detector (`find_active_subblocks`, lines 305-376)

Timestamps here are natural numbers of microseconds; the callers pass sorted
event lists, so every event is at or after the bin-aligned origin and the
Python floor divisions are Nat divisions.  The tuple
`(start, end, total_queries, peak_rate)` becomes the `SubBlock` structure
(`stop` stands for the Python `end`). -/

/-- One detected active sub-block: `(s, e, q, p * (1 / bin_minutes))` in the source. -/
structure SubBlock where
  start : Nat
  stop : Nat
  total_queries : Nat
  peak_rate : ℚ
deriving DecidableEq

/-- The bin origin: the first event with seconds and microseconds zeroed, then
moved down by `origin.minute % bin_minutes` minutes
(`origin.minute` is the minute within the hour). -/
def originOf (e0 bin_minutes : Nat) : Nat :=
  ((e0 / usPerMinute) - ((e0 / usPerMinute) % 60) % bin_minutes) * usPerMinute

/-- Bin index of an event: `int((ts - origin).total_seconds() / 60 / bin_minutes)`. -/
def binIndex (origin bin_minutes ts : Nat) : Nat :=
  (ts - origin) / (usPerMinute * bin_minutes)

/-- The per-bin tally `bin_counts` (a dict in the source), as a function from
bin index to event count. -/
def binCounts (events : List Nat) (origin bin_minutes : Nat) (i : Nat) : Nat :=
  (events.filter fun ts => binIndex origin bin_minutes ts == i).length

/-- The sub-block closed over bins `active_start .. last_hot` (`s .. h`):
start/end times and query total exactly as in the source.  The `peak_rate`
field carries the exact rational value of `p * (1 / bin_minutes)`; the program
evaluates that product in binary64 floating point, which can differ from the
exact value by one unit in the last place — `reportedPeakRate` below models
the rounded value the program actually reports. -/
def mkSubBlock (origin bin_minutes : Nat) (counts : Nat → Nat) (s h : Nat) : SubBlock :=
  { start := origin + s * bin_minutes * usPerMinute
    stop := origin + (h + 1) * bin_minutes * usPerMinute
    total_queries := ((List.range' s (h + 1 - s)).map counts).sum
    peak_rate := ((((List.range' s (h + 1 - s)).map counts).foldr max 0 : Nat) : ℚ) *
      (1 / (bin_minutes : ℚ)) }

/-- The mutable scan state of the bin loop: the accumulated sub-block list and
the `active_start` / `last_hot` / `cold_run` variables. -/
structure ScanState where
  subblocks : List SubBlock
  active_start : Option Nat
  last_hot : Option Nat
  cold_run : Nat
deriving DecidableEq

/-- One iteration of the bin scan (`for i in range(max_idx + 1)`).  In the
source `last_hot` is always set whenever `active_start` is (both are assigned
together in the hot branch), so the unreachable `some s, none` case leaves the
state unchanged. -/
def scanStep (counts : Nat → Nat) (origin bin_minutes hot_threshold idle_bins : Nat)
    (st : ScanState) (i : Nat) : ScanState :=
  if hot_threshold ≤ counts i then
    { subblocks := st.subblocks
      active_start := match st.active_start with
        | none => some i
        | some s => some s
      last_hot := some i
      cold_run := 0 }
  else
    match st.active_start, st.last_hot with
    | some s, some h =>
      if idle_bins < st.cold_run + 1 then
        { subblocks := st.subblocks ++ [mkSubBlock origin bin_minutes counts s h]
          active_start := none
          last_hot := none
          cold_run := 0 }
      else
        { st with cold_run := st.cold_run + 1 }
    | _, _ => st

/-- `find_active_subblocks(events, min_rate, idle_gap, bin_minutes)`:
bins the events from the bin-aligned origin, scans the bins in index order,
and closes any sub-block still open after the loop. -/
def find_active_subblocks (events : List Nat)
    (min_rate idle_gap bin_minutes : Nat) : List SubBlock :=
  match events with
  | [] => []
  | e0 :: _ =>
    let origin := originOf e0 bin_minutes
    let counts := binCounts events origin bin_minutes
    let hot_threshold := min_rate * bin_minutes
    let idle_bins := max 1 (ceilDiv idle_gap bin_minutes)
    let max_idx := (events.map (binIndex origin bin_minutes)).foldr max 0
    let final := (List.range (max_idx + 1)).foldl
      (scanStep counts origin bin_minutes hot_threshold idle_bins)
      ⟨[], none, none, 0⟩
    match final.active_start, final.last_hot with
    | some s, some h => final.subblocks ++ [mkSubBlock origin bin_minutes counts s h]
    | _, _ => final.subblocks

/-- The per-block analysis of `main` (lines 899-909): select the block's
events, detect sub-blocks, clamp each to the block's `[b_start, b_end]`, and
drop any sub-block whose clamped interval is empty. -/
def analyze_block (events : List Nat) (b_start b_end : Nat)
    (active_rate idle_gap bin_minutes : Nat) : List SubBlock :=
  let be := events.filter fun ts => b_start ≤ ts && ts ≤ b_end
  (find_active_subblocks be active_rate idle_gap bin_minutes).filterMap fun sb =>
    if max sb.start b_start < min sb.stop b_end then
      some { sb with start := max sb.start b_start, stop := min sb.stop b_end }
    else
      none

/-! ### C4: scenario B for the detector -/

/-- The events of spec Scenario B: six queries in each of the one-minute bins
0, 1, 2, 5 and 6, none in bins 3, 4, 7, 8, 9 (a block cannot extend past its
last event, so the trailing empty bins hold no events at all). -/
def scenarioB : List Nat :=
  [0, 1000000, 2000000, 3000000, 4000000, 5000000,
   60000000, 61000000, 62000000, 63000000, 64000000, 65000000,
   120000000, 121000000, 122000000, 123000000, 124000000, 125000000,
   300000000, 301000000, 302000000, 303000000, 304000000, 305000000,
   360000000, 361000000, 362000000, 363000000, 364000000, 365000000]

/-- C4 (confirmed): on Scenario B (bin counts 6,6,6,0,0,6,6 and nothing after,
rate threshold 5/min, idle gap 2 min, bin width 1 min) the detector returns
exactly one merged sub-block covering bins 0 through 6 — from minute 0 to
minute 7, 30 queries, peak 6/min — and no sub-block anywhere else. -/
theorem find_active_subblocks_scenarioB :
    find_active_subblocks scenarioB 5 2 1 =
      [⟨0, 420000000, 30, 6⟩] := by
  have h : find_active_subblocks scenarioB 5 2 1 =
      [⟨0, 420000000, 30, ((6 : Nat) : ℚ) * (1 / ((1 : Nat) : ℚ))⟩] := rfl
  rw [h]
  norm_num

/-! ### C3: idle-gap budget of the scan -/

/-- C3 counterexample: with idle-gap tolerance 0 and bin width 1 the claimed
budget `ceil(idleGap/binWidth)` is `0`, so after the cold bin at index 1 the
cold-run count `1` exceeds it and the claim requires the sub-block to close at
bin 0 (a first sub-block ending at minute 1, time 60000000).  The code instead
uses `max(1, ceil(...)) = 1`, keeps the sub-block open, and returns a single
sub-block spanning bins 0-2 — no emitted sub-block ends at 60000000. -/
theorem find_active_subblocks_zero_idle_gap :
    ceilDiv 0 1 = 0 ∧
      find_active_subblocks
        [0, 1000000, 2000000, 3000000, 4000000,
         120000000, 121000000, 122000000, 123000000, 124000000] 5 0 1 =
        [⟨0, 180000000, 10, 5⟩] := by
  refine ⟨by decide, ?_⟩
  have h : find_active_subblocks
      [0, 1000000, 2000000, 3000000, 4000000,
       120000000, 121000000, 122000000, 123000000, 124000000] 5 0 1 =
      [⟨0, 180000000, 10, ((5 : Nat) : ℚ) * (1 / ((1 : Nat) : ℚ))⟩] := rfl
  rw [h]
  norm_num

/-- C3 (amended): for every rate threshold, idle-gap tolerance and bin width,
with the code's budget `idle_bins = max(1, ceil(idleGapMinutes / binWidthMinutes))`,
one scan step on an open sub-block (`active_start = some s`, `last_hot = some h`)
keeps it open on a hot bin (resetting the cold run), keeps it open on a cold bin
while the consecutive cold-bin count stays within the budget, and closes it at
the last hot bin `h` exactly when the count exceeds the budget. -/
theorem scanStep_idle_budget (counts : Nat → Nat)
    (origin bin_minutes hot_threshold idle_gap : Nat) (st : ScanState) (s h : Nat)
    (hopen : st.active_start = some s) (hlast : st.last_hot = some h) :
    (∀ i, hot_threshold ≤ counts i →
      scanStep counts origin bin_minutes hot_threshold
          (max 1 (ceilDiv idle_gap bin_minutes)) st i =
        ⟨st.subblocks, some s, some i, 0⟩) ∧
    (∀ i, counts i < hot_threshold →
      st.cold_run + 1 ≤ max 1 (ceilDiv idle_gap bin_minutes) →
      scanStep counts origin bin_minutes hot_threshold
          (max 1 (ceilDiv idle_gap bin_minutes)) st i =
        ⟨st.subblocks, some s, some h, st.cold_run + 1⟩) ∧
    (∀ i, counts i < hot_threshold →
      max 1 (ceilDiv idle_gap bin_minutes) < st.cold_run + 1 →
      scanStep counts origin bin_minutes hot_threshold
          (max 1 (ceilDiv idle_gap bin_minutes)) st i =
        ⟨st.subblocks ++ [mkSubBlock origin bin_minutes counts s h],
          none, none, 0⟩) := by
  obtain ⟨sbs, as0, lh0, cr⟩ := st
  cases hopen
  cases hlast
  refine ⟨fun i hi => ?_, fun i hi hle => ?_, fun i hi hgt => ?_⟩
  · simp [scanStep, hi]
  · simp [scanStep, Nat.not_le.mpr hi, Nat.not_lt.mpr hle]
  · simp [scanStep, Nat.not_le.mpr hi, hgt]

/-- Witness for C3's amended step property: a cold bin within the budget
(idle gap 3, bin width 1, cold run going from 0 to 1) keeps the sub-block open. -/
theorem scanStep_idle_budget_witness :
    (⟨[], some 0, some 0, 0⟩ : ScanState).active_start = some 0 ∧
      (fun _ : Nat => 0) 1 < 1 ∧
      scanStep (fun _ => 0) 0 1 1 (max 1 (ceilDiv 3 1)) ⟨[], some 0, some 0, 0⟩ 1 =
        ⟨[], some 0, some 0, 1⟩ :=
  ⟨rfl, by decide,
    (scanStep_idle_budget (fun _ => 0) 0 1 1 3 ⟨[], some 0, some 0, 0⟩ 0 0
        rfl rfl).2.1 1 (by decide) (by decide)⟩

/-! ### C2: single-event blocks -/

theorem originOf_le (ts b : Nat) : originOf ts b ≤ ts := by
  unfold originOf usPerMinute
  generalize hr : ts / 60000000 % 60 % b = r
  have h3 : r ≤ ts / 60000000 % 60 := hr ▸ Nat.mod_le _ _
  omega

theorem lt_originOf_add (ts b : Nat) (hb : 0 < b) :
    ts < originOf ts b + b * usPerMinute := by
  unfold originOf usPerMinute
  generalize hr : ts / 60000000 % 60 % b = r
  have h3 : r ≤ ts / 60000000 % 60 := hr ▸ Nat.mod_le _ _
  have h4 : r < b := hr ▸ Nat.mod_lt _ hb
  omega

theorem binIndex_self_origin (ts b : Nat) (hb : 0 < b) :
    binIndex (originOf ts b) b ts = 0 := by
  have h1 := originOf_le ts b
  have h2 := lt_originOf_add ts b hb
  unfold binIndex
  apply Nat.div_eq_of_lt
  have : usPerMinute * b = b * usPerMinute := Nat.mul_comm _ _
  omega

theorem binCounts_single (ts b i : Nat) (hb : 0 < b) :
    binCounts [ts] (originOf ts b) b i = if i = 0 then 1 else 0 := by
  unfold binCounts
  simp only [List.filter_cons, List.filter_nil]
  rw [show binIndex (originOf ts b) b ts = 0 from binIndex_self_origin ts b hb]
  by_cases h : i = 0
  · simp [h]
  · simp [Ne.symm h, h]

/-- C2 (amended): a single-event block yields no sub-block once the `main` loop
clamps to the block's `[ts, ts]` span — the clamped interval is empty under the
strict test, whatever the parameters; before clamping, the detector yields
exactly one sub-block when the event's bin is hot (`1 ≥ rateThreshold × binWidth`)
and none otherwise. -/
theorem analyze_block_single (ts r g b : Nat) (hb : 0 < b) :
    analyze_block [ts] ts ts r g b = [] ∧
      (r * b ≤ 1 → find_active_subblocks [ts] r g b =
        [⟨originOf ts b, originOf ts b + b * usPerMinute, 1,
          ((1 : Nat) : ℚ) * (1 / (b : ℚ))⟩]) ∧
      (1 < r * b → find_active_subblocks [ts] r g b = []) := by
  have horig := originOf_le ts b
  have horig' := lt_originOf_add ts b hb
  have hcount0 : binCounts [ts] (originOf ts b) b 0 = 1 := by
    rw [binCounts_single ts b 0 hb]
    simp
  have hmain : find_active_subblocks [ts] r g b =
      if r * b ≤ 1 then
        [⟨originOf ts b, originOf ts b + b * usPerMinute, 1,
          ((1 : Nat) : ℚ) * (1 / (b : ℚ))⟩]
      else [] := by
    simp only [find_active_subblocks]
    rw [show ([ts].map (binIndex (originOf ts b) b)).foldr max 0 = 0 by
      simp [binIndex_self_origin ts b hb]]
    rw [show List.range (0 + 1) = [0] from rfl]
    simp only [List.foldl_cons, List.foldl_nil, scanStep, hcount0]
    by_cases hhot : r * b ≤ 1
    · simp only [if_pos hhot]
      simp [mkSubBlock, hcount0, List.range']
    · simp only [if_neg hhot]
  refine ⟨?_, fun h1 => by rw [hmain, if_pos h1], fun h1 => by
    rw [hmain, if_neg (by omega)]⟩
  simp only [analyze_block]
  rw [show List.filter (fun t => ts ≤ t && t ≤ ts) [ts] = [ts] by simp]
  rw [hmain]
  by_cases hhot : r * b ≤ 1
  · rw [if_pos hhot]
    have hcond : ¬ (max (originOf ts b) ts < min (originOf ts b + b * usPerMinute) ts) := by
      rw [max_eq_right horig, min_eq_right (Nat.le_of_lt horig')]
      omega
    simp [hcond]
  · rw [if_neg hhot]
    rfl

/-- Witness for C2's amended claim at a single event in second 30 with rate
threshold 1 and bin width 1 (a hot bin). -/
theorem analyze_block_single_witness :
    0 < 1 ∧
      (analyze_block [30] 30 30 1 3 1 = [] ∧
        (1 * 1 ≤ 1 → find_active_subblocks [30] 1 3 1 =
          [⟨originOf 30 1, originOf 30 1 + 1 * usPerMinute, 1,
            ((1 : Nat) : ℚ) * (1 / ((1 : Nat) : ℚ))⟩]) ∧
        (1 < 1 * 1 → find_active_subblocks [30] 1 3 1 = [])) :=
  ⟨by decide, analyze_block_single 30 1 3 1 (by decide)⟩

/-- C2 counterexample: one event at time 0 in a hot bin (`1 ≥ 1 × 1` with rate
threshold 1, bin width 1), yet the full analysis — detection plus clamping to
the parent block `[0, 0]` — yields no sub-block instead of the claimed one. -/
theorem analyze_block_single_hot_empty :
    1 * 1 ≤ 1 ∧ analyze_block [0] 0 0 1 3 1 = [] := by
  refine ⟨by decide, ?_⟩
  rfl

/-! ### C10: emitted sub-blocks meet the rate threshold -/

theorem le_foldr_max (l : List Nat) : ∀ x ∈ l, x ≤ l.foldr max 0 := by
  induction l with
  | nil => intro x hx; cases hx
  | cons a t ih =>
    intro x hx
    rcases List.mem_cons.mp hx with rfl | hx
    · exact le_max_left _ _
    · exact le_trans (ih x hx) (le_max_right _ _)

/-- Any sub-block closed over bins `s .. h` with a hot bin at `h` carries at
least `min_rate * bin_minutes` queries and a peak rate of at least `min_rate`. -/
theorem mkSubBlock_good (counts : Nat → Nat) (origin bin_minutes min_rate : Nat)
    (hb : 0 < bin_minutes) (s h : Nat) (hsh : s ≤ h)
    (hhot : min_rate * bin_minutes ≤ counts h) :
    min_rate * bin_minutes ≤ (mkSubBlock origin bin_minutes counts s h).total_queries ∧
      (min_rate : ℚ) ≤ (mkSubBlock origin bin_minutes counts s h).peak_rate := by
  have hmem : h ∈ List.range' s (h + 1 - s) := by
    rw [List.mem_range'_1]
    omega
  have hmem' : counts h ∈ (List.range' s (h + 1 - s)).map counts :=
    List.mem_map_of_mem counts hmem
  constructor
  · calc min_rate * bin_minutes ≤ counts h := hhot
      _ ≤ ((List.range' s (h + 1 - s)).map counts).sum :=
        List.single_le_sum (fun _ _ => Nat.zero_le _) _ hmem'
  · have hpeak : min_rate * bin_minutes ≤
        ((List.range' s (h + 1 - s)).map counts).foldr max 0 :=
      le_trans hhot (le_foldr_max _ _ hmem')
    show (min_rate : ℚ) ≤
      ((((List.range' s (h + 1 - s)).map counts).foldr max 0 : Nat) : ℚ) *
        (1 / (bin_minutes : ℚ))
    rw [mul_one_div, le_div_iff (by exact_mod_cast hb)]
    exact_mod_cast hpeak

/-- Loop invariant of the bin scan: every accumulated sub-block satisfies `P`,
and whenever a sub-block is open its `last_hot` bin is a hot bin at or after
`active_start` and before the scan position. -/
def ScanInv (counts : Nat → Nat) (hot_threshold : Nat) (P : SubBlock → Prop)
    (n : Nat) (st : ScanState) : Prop :=
  (∀ sb ∈ st.subblocks, P sb) ∧
  ∀ s, st.active_start = some s →
    ∃ h, st.last_hot = some h ∧ s ≤ h ∧ h < n ∧ hot_threshold ≤ counts h

theorem scanStep_inv (counts : Nat → Nat) (origin bin_minutes hot_threshold idle_bins : Nat)
    (P : SubBlock → Prop)
    (hP : ∀ s h, s ≤ h → hot_threshold ≤ counts h →
      P (mkSubBlock origin bin_minutes counts s h))
    (n : Nat) (st : ScanState) (hinv : ScanInv counts hot_threshold P n st) :
    ScanInv counts hot_threshold P (n + 1)
      (scanStep counts origin bin_minutes hot_threshold idle_bins st n) := by
  obtain ⟨sbs, as0, lh0, cr⟩ := st
  obtain ⟨hsubs, hactive⟩ := hinv
  unfold scanStep
  by_cases hhot : hot_threshold ≤ counts n
  · rw [if_pos hhot]
    cases as0 with
    | none =>
      refine ⟨hsubs, fun s hs => ?_⟩
      have hs' : n = s := by simpa using hs
      subst hs'
      exact ⟨n, rfl, le_refl n, Nat.lt_succ_self n, hhot⟩
    | some s0 =>
      refine ⟨hsubs, fun s hs => ?_⟩
      have hs' : s0 = s := by simpa using hs
      subst hs'
      obtain ⟨h0, _, hsh0, hh0n, _⟩ := hactive s0 rfl
      exact ⟨n, rfl, le_trans hsh0 (Nat.le_of_lt hh0n), Nat.lt_succ_self n, hhot⟩
  · rw [if_neg hhot]
    cases as0 with
    | none =>
      cases lh0 with
      | none =>
        exact ⟨hsubs, fun s hs =>
          Option.noConfusion (show (none : Option Nat) = some s from hs)⟩
      | some h0 =>
        exact ⟨hsubs, fun s hs =>
          Option.noConfusion (show (none : Option Nat) = some s from hs)⟩
    | some s0 =>
      cases lh0 with
      | none =>
        obtain ⟨h1, hlh, _, _, _⟩ := hactive s0 rfl
        exact Option.noConfusion (show (none : Option Nat) = some h1 from hlh)
      | some h0 =>
        obtain ⟨h1, hlh, hsh0, hh0n, hhot0⟩ := hactive s0 rfl
        have hh : h0 = h1 := by simpa using hlh
        subst hh
        by_cases hclose : idle_bins < cr + 1
        · simp only [hclose, if_true]
          refine ⟨fun sb hsb => ?_, fun s hs =>
            Option.noConfusion (show (none : Option Nat) = some s from hs)⟩
          rcases List.mem_append.mp hsb with hsb | hsb
          · exact hsubs sb hsb
          · rcases List.mem_singleton.mp hsb with rfl
            exact hP s0 h0 hsh0 hhot0
        · simp only [hclose, if_false]
          refine ⟨hsubs, fun s hs => ?_⟩
          have hs' : s0 = s := by simpa using hs
          subst hs'
          exact ⟨h0, rfl, hsh0, Nat.lt_succ_of_lt hh0n, hhot0⟩

theorem foldl_scanStep_inv (counts : Nat → Nat)
    (origin bin_minutes hot_threshold idle_bins : Nat) (P : SubBlock → Prop)
    (hP : ∀ s h, s ≤ h → hot_threshold ≤ counts h →
      P (mkSubBlock origin bin_minutes counts s h)) :
    ∀ (k n : Nat) (st : ScanState), ScanInv counts hot_threshold P n st →
      ScanInv counts hot_threshold P (n + k)
        ((List.range' n k).foldl
          (scanStep counts origin bin_minutes hot_threshold idle_bins) st) := by
  intro k
  induction k with
  | zero => intro n st h; simpa using h
  | succ k ih =>
    intro n st h
    rw [List.range'_succ n k 1, List.foldl_cons]
    have h1 := ih (n + 1) _ (scanStep_inv counts origin bin_minutes hot_threshold
      idle_bins P hP n st h)
    have : n + 1 + k = n + (k + 1) := by omega
    rwa [this] at h1

/-- C10 (amended): for every nonempty sorted event list and positive bin
width, every sub-block emitted by the detector (before clamping) spans a hot
bin, so its query count is at least `rateThreshold × binWidthMinutes` and its
exact peak rate `maxBinCount / binWidth` is at least the rate threshold.  The
program reports that peak evaluated in binary64, which can round to just below
the threshold (see the bin-width-49 counterexample below), so the claim's
"reported peakRatePerMinute ≥ threshold" form does not hold of the program. -/
theorem find_active_subblocks_above_threshold (events : List Nat)
    (min_rate idle_gap bin_minutes : Nat) (hb : 0 < bin_minutes)
    (hne : events ≠ []) (hs : events.Sorted (· ≤ ·)) :
    ∀ sb ∈ find_active_subblocks events min_rate idle_gap bin_minutes,
      min_rate * bin_minutes ≤ sb.total_queries ∧ (min_rate : ℚ) ≤ sb.peak_rate := by
  match events with
  | [] => exact absurd rfl hne
  | e0 :: rest =>
    intro sb hsb
    simp only [find_active_subblocks] at hsb
    set origin := originOf e0 bin_minutes with horigin
    set counts := binCounts (e0 :: rest) origin bin_minutes with hcounts
    set max_idx := ((e0 :: rest).map (binIndex origin bin_minutes)).foldr max 0
      with hmax_idx
    have hP : ∀ s h, s ≤ h → min_rate * bin_minutes ≤ counts h →
        (min_rate * bin_minutes ≤ (mkSubBlock origin bin_minutes counts s h).total_queries ∧
          (min_rate : ℚ) ≤ (mkSubBlock origin bin_minutes counts s h).peak_rate) :=
      fun s h hsh hhot => mkSubBlock_good counts origin bin_minutes min_rate hb s h hsh hhot
    have hinit : ScanInv counts (min_rate * bin_minutes)
        (fun sb => min_rate * bin_minutes ≤ sb.total_queries ∧
          (min_rate : ℚ) ≤ sb.peak_rate) 0 ⟨[], none, none, 0⟩ := by
      constructor
      · intro sb hsb; cases hsb
      · intro s hs; cases hs
    have hfold := foldl_scanStep_inv counts origin bin_minutes (min_rate * bin_minutes)
      (max 1 (ceilDiv idle_gap bin_minutes)) _ hP (max_idx + 1) 0 _ hinit
    rw [← List.range_eq_range'] at hfold
    set final := (List.range (max_idx + 1)).foldl
      (scanStep counts origin bin_minutes (min_rate * bin_minutes)
        (max 1 (ceilDiv idle_gap bin_minutes))) ⟨[], none, none, 0⟩ with hfinal
    obtain ⟨hsubs, hactive⟩ := hfold
    cases hfa : final.active_start with
    | none =>
      rw [hfa] at hsb
      cases hfl : final.last_hot with
      | none => rw [hfl] at hsb; exact hsubs sb hsb
      | some h0 => rw [hfl] at hsb; exact hsubs sb hsb
    | some s0 =>
      rw [hfa] at hsb
      obtain ⟨h0, hfl, hsh0, _, hhot0⟩ := hactive s0 hfa
      rw [hfl] at hsb
      rcases List.mem_append.mp hsb with hsb | hsb
      · exact hsubs sb hsb
      · rcases List.mem_singleton.mp hsb with rfl
        exact hP s0 h0 hsh0 hhot0

/-- Witness for C10 on Scenario B: the single emitted sub-block holds 30 ≥ 5
queries and peak 6 ≥ 5 per minute. -/
theorem find_active_subblocks_above_threshold_witness :
    0 < 1 ∧ scenarioB ≠ [] ∧ scenarioB.Sorted (· ≤ ·) ∧
      (∀ sb ∈ find_active_subblocks scenarioB 5 2 1,
        5 * 1 ≤ sb.total_queries ∧ ((5 : Nat) : ℚ) ≤ sb.peak_rate) :=
  ⟨by decide, by decide, by decide,
    find_active_subblocks_above_threshold scenarioB 5 2 1 (by decide) (by decide)
      (by decide)⟩

/-! ### The binary64 value of the reported peak rate

The source computes `p * (1 / bin_minutes)` in double-precision floating
point: the division is one correctly rounded operation, `p` (a bin count far
below `2^53`) converts exactly, and the product is rounded once more.  The
model below rounds a positive rational to the nearest binary64 value
(ties to even) in the normal range, which covers every magnitude that occurs
here; it exists to compare the reported peak with the exact rational
`peak_rate` of `mkSubBlock`. -/

/-- Round a rational to the nearest integer, ties going to the even integer
(the IEEE-754 tie-breaking rule). -/
def rndNE (x : ℚ) : Int :=
  if Int.fract x < 1/2 then ⌊x⌋
  else if (1:ℚ)/2 < Int.fract x then ⌊x⌋ + 1
  else if Even ⌊x⌋ then ⌊x⌋ else ⌊x⌋ + 1

/-- The binary64 double nearest to a positive rational in the normal range:
the 53-bit significand `q / 2^(log2 q - 52)` is rounded to the nearest
integer, ties to even, and rescaled.  (Subnormals and overflow cannot occur at
the magnitudes involved in a peak-rate computation.) -/
def roundDouble (q : ℚ) : ℚ :=
  if q ≤ 0 then 0
  else ((rndNE (q / 2 ^ (Int.log 2 q - 52)) : ℚ)) * 2 ^ (Int.log 2 q - 52)

/-- The peak rate as the program reports it: `p * (1 / bin_minutes)` with a
correctly rounded division followed by a correctly rounded product (`p`
converts to binary64 exactly, being far below `2^53`). -/
def reportedPeakRate (p bin_minutes : Nat) : ℚ :=
  roundDouble ((p : ℚ) * roundDouble (1 / (bin_minutes : ℚ)))

/-- `Int.log 2` is determined by the enclosing binade. -/
theorem int_log_unique (q : ℚ) (e : Int) (h1 : (2:ℚ)^e ≤ q) (h2 : q < (2:ℚ)^(e+1)) :
    Int.log 2 q = e := by
  have hq : 0 < q := lt_of_lt_of_le (zpow_pos (by norm_num) e) h1
  have h1' : (((2:ℕ):ℚ))^e ≤ q := by exact_mod_cast h1
  have hle : e ≤ Int.log 2 q := by
    have h3 := Int.log_mono_right (b := 2)
      (zpow_pos (by norm_num : (0:ℚ) < ((2:ℕ):ℚ)) e) h1'
    rwa [Int.log_zpow (by norm_num : 1 < 2)] at h3
  have hge : Int.log 2 q ≤ e := by
    by_contra hlt
    have h4 : e + 1 ≤ Int.log 2 q := by omega
    have h5 : (2:ℚ)^(e+1) ≤ (2:ℚ)^(Int.log 2 q) :=
      (zpow_le_zpow_iff_right₀ (by norm_num : (1:ℚ) < 2)).mpr h4
    have h6 := Int.zpow_log_le_self (b := 2) (by norm_num : 1 < 2) hq
    have h7 : (2:ℚ)^(e+1) ≤ q := le_trans h5 (by exact_mod_cast h6)
    linarith
  omega

/-- `1/49` lies in `[2^-6, 2^-5)`; its significand `2^58/49` has fractional
part `23/49 < 1/2`, so the double value of `1/49` is `5882252574524729·2^-58`. -/
theorem roundDouble_inv49 :
    roundDouble ((1:ℚ)/49) = 5882252574524729 / 288230376151711744 := by
  have hlog : Int.log 2 ((1:ℚ)/49) = -6 := by
    apply int_log_unique
    · rw [show (-6 : Int) = -(6:Nat) by norm_num, zpow_neg, zpow_natCast]
      norm_num
    · rw [show ((-6 : Int) + 1) = -(5:Nat) by norm_num, zpow_neg, zpow_natCast]
      norm_num
  have hdiv : ((1:ℚ)/49) / 2^(-58 : Int) = 288230376151711744/49 := by
    rw [show (-58:Int) = -(58:Nat) by norm_num, zpow_neg, zpow_natCast]
    norm_num
  have hfloor : ⌊((288230376151711744:ℚ)/49)⌋ = 5882252574524729 := by
    rw [Int.floor_eq_iff]
    norm_num
  have hrnd : rndNE ((288230376151711744:ℚ)/49) = 5882252574524729 := by
    unfold rndNE
    have hf : Int.fract ((288230376151711744:ℚ)/49) = 23/49 := by
      unfold Int.fract
      rw [hfloor]
      norm_num
    rw [hf, if_pos (by norm_num), hfloor]
  unfold roundDouble
  rw [if_neg (by norm_num), hlog, show (-6 - 52 : Int) = -58 by norm_num, hdiv, hrnd,
    show (-58:Int) = -(58:Nat) by norm_num, zpow_neg, zpow_natCast]
  norm_num

/-- `49 · fl(1/49) = (2^58 - 23)/2^58` lies in `[1/2, 1)`; its significand
`2^53 - 23/32` has fractional part `9/32 < 1/2`, so it rounds down to
`(2^53 - 1)·2^-53 = 1 - 2^-53`, strictly below `1`. -/
theorem reportedPeakRate_49 :
    reportedPeakRate 49 49 = 1 - 1 / 9007199254740992 := by
  unfold reportedPeakRate
  rw [show ((49:Nat):ℚ) = 49 by norm_num, roundDouble_inv49]
  have hv : (49:ℚ) * (5882252574524729 / 288230376151711744) =
      288230376151711721 / 288230376151711744 := by
    norm_num
  rw [hv]
  have hlog : Int.log 2 ((288230376151711721:ℚ) / 288230376151711744) = -1 := by
    apply int_log_unique
    · rw [show (-1 : Int) = -(1:Nat) by norm_num, zpow_neg, zpow_natCast]
      norm_num
    · rw [show ((-1 : Int) + 1) = (0:Int) by norm_num, zpow_zero]
      norm_num
  have hdiv : ((288230376151711721:ℚ) / 288230376151711744) / 2^(-53 : Int) =
      288230376151711721/32 := by
    rw [show (-53:Int) = -(53:Nat) by norm_num, zpow_neg, zpow_natCast]
    norm_num
  have hfloor : ⌊((288230376151711721:ℚ)/32)⌋ = 9007199254740991 := by
    rw [Int.floor_eq_iff]
    norm_num
  have hrnd : rndNE ((288230376151711721:ℚ)/32) = 9007199254740991 := by
    unfold rndNE
    have hf : Int.fract ((288230376151711721:ℚ)/32) = 9/32 := by
      unfold Int.fract
      rw [hfloor]
      norm_num
    rw [hf, if_pos (by norm_num), hfloor]
  unfold roundDouble
  rw [if_neg (by norm_num), hlog, show (-1 - 52 : Int) = -53 by norm_num, hdiv, hrnd,
    show (-53:Int) = -(53:Nat) by norm_num, zpow_neg, zpow_natCast]
  norm_num

/-- 49 events, one per minute over a 49-minute bin: the bin holds exactly 49
queries, hot at rate threshold 1 (`49 ≥ 1 × 49`). -/
def scenario49 : List Nat := (List.range 49).map (fun k => 60000000 * k)

set_option maxRecDepth 4000 in
/-- C10 counterexample: with rate threshold 1 and bin width 49 minutes, a bin
of exactly 49 queries is hot and the detector emits one sub-block whose exact
peak rate is `49/49 = 1`; the value the program reports for it is the binary64
product `fl(49 · fl(1/49)) = 1 - 2^-53`, strictly below the rate threshold —
so "its reported peakRatePerMinute is ≥ the rate threshold" fails here. -/
theorem find_active_subblocks_reported_peak_below :
    1 * 49 ≤ 49 ∧
      find_active_subblocks scenario49 1 3 49 = [⟨0, 2940000000, 49, 1⟩] ∧
      reportedPeakRate 49 49 = 1 - 1 / 9007199254740992 ∧
      reportedPeakRate 49 49 < 1 := by
  refine ⟨by decide, ?_, reportedPeakRate_49, ?_⟩
  · have h : find_active_subblocks scenario49 1 3 49 =
        [⟨0, 2940000000, 49, ((49 : Nat) : ℚ) * (1 / ((49 : Nat) : ℚ))⟩] := rfl
    rw [h]
    norm_num
  · rw [reportedPeakRate_49]
    norm_num

/-! ### C8: clamped sub-blocks stay inside the parent block -/

/-- C8 (confirmed): every sub-block surviving the clamping loop of `main` lies
inside the parent block's `[b_start, b_end]` and is non-empty (clamped start
strictly before clamped end); a sub-block whose clamped interval is empty is
discarded by the very same test rather than emitted. -/
theorem analyze_block_contained (events : List Nat)
    (b_start b_end active_rate idle_gap bin_minutes : Nat) :
    ∀ sb ∈ analyze_block events b_start b_end active_rate idle_gap bin_minutes,
      b_start ≤ sb.start ∧ sb.stop ≤ b_end ∧ sb.start < sb.stop := by
  intro sb hsb
  simp only [analyze_block] at hsb
  rcases List.mem_filterMap.mp hsb with ⟨sb0, _, hf⟩
  by_cases hc : max sb0.start b_start < min sb0.stop b_end
  · rw [if_pos hc] at hf
    cases hf
    exact ⟨le_max_right _ _, min_le_right _ _, hc⟩
  · rw [if_neg hc] at hf
    exact Option.noConfusion hf

/-- Witness for C8: a one-bin burst clamped to the block `[0, 4000000]`. -/
theorem analyze_block_contained_witness :
    (⟨0, 4000000, 5, 5⟩ : SubBlock) ∈
        analyze_block [0, 1000000, 2000000, 3000000, 4000000] 0 4000000 5 3 1 ∧
      0 ≤ (0 : Nat) ∧ 4000000 ≤ 4000000 ∧ (0 : Nat) < 4000000 := by
  have hlist : analyze_block [0, 1000000, 2000000, 3000000, 4000000] 0 4000000 5 3 1 =
      [⟨0, 4000000, 5, ((5 : Nat) : ℚ) * (1 / ((1 : Nat) : ℚ))⟩] := rfl
  have helem : (⟨0, 4000000, 5, 5⟩ : SubBlock) =
      ⟨0, 4000000, 5, ((5 : Nat) : ℚ) * (1 / ((1 : Nat) : ℚ))⟩ := by
    norm_num
  have hmem : (⟨0, 4000000, 5, 5⟩ : SubBlock) ∈
      analyze_block [0, 1000000, 2000000, 3000000, 4000000] 0 4000000 5 3 1 := by
    rw [hlist, helem]
    exact List.mem_singleton_self _
  exact ⟨hmem, analyze_block_contained _ _ _ _ _ _ _ hmem⟩

/-! ### Block segmenter (`build_blocks`, src/adguard_activity.py lines 269-302)

Timestamps are integers (microseconds); the gap comparison
`ts - block_end >= timedelta(minutes=gap_minutes)` becomes
`gap_minutes * usPerMinute ≤ ts - block_end`.  A block tuple
`(start, end, query_count)` becomes the `Block` structure
(`stop` stands for the Python `end`). -/

/-- One activity block `(block_start, block_end, query_count)`. -/
structure Block where
  start : Int
  stop : Int
  count : Nat
deriving DecidableEq

/-- The scan loop of `build_blocks`, carrying the running block
`(block_start, block_end, query_count)`.  Closing a block appends it and
reseeds the running block at the current event; otherwise the running block
is extended (`block_end = ts` happens in both branches). -/
def rawBlocksAux (gap : Int) (block_start block_end : Int) (query_count : Nat) :
    List Int → List Block
  | [] => [⟨block_start, block_end, query_count⟩]
  | ts :: rest =>
    if gap ≤ ts - block_end then
      ⟨block_start, block_end, query_count⟩ :: rawBlocksAux gap ts ts 1 rest
    else
      rawBlocksAux gap block_start ts (query_count + 1) rest

/-- `raw_blocks` for a sorted event list: empty input yields no blocks,
otherwise the scan is seeded with the first event. -/
def rawBlocks (gap : Int) : List Int → List Block
  | [] => []
  | ts :: rest => rawBlocksAux gap ts ts 1 rest

/-- `build_blocks(events, gap_minutes, min_queries)`: the raw blocks split by
the minimum-count rule into `(kept, dropped)`; the empty input returns two
empty lists. -/
def build_blocks (events : List Int) (gap_minutes : Int) (min_queries : Nat) :
    List Block × List Block :=
  let raw := rawBlocks (gap_minutes * (usPerMinute : Int)) events
  (raw.filter fun b => min_queries ≤ b.count,
   raw.filter fun b => b.count < min_queries)

/-- The block summarizing one contiguous chunk of events: first event, last
event, event count. -/
def blockOf (ch : List Int) : Block := ⟨ch.headI, ch.getLastI, ch.length⟩

/-! ### List helpers for the segmenter proofs -/

theorem headI_append_of_ne_nil (l l2 : List Int) (h : l ≠ []) :
    (l ++ l2).headI = l.headI := by
  cases l with
  | nil => exact absurd rfl h
  | cons a t => rfl

theorem getLastI_concat (l : List Int) (a : Int) : (l ++ [a]).getLastI = a := by
  simp [List.getLastI_eq_getLast?]

theorem getLastI_append_of_ne_nil (l l2 : List Int) (h : l2 ≠ []) :
    (l ++ l2).getLastI = l2.getLastI := by
  simp [List.getLastI_eq_getLast?, List.getLast?_append_of_ne_nil l h]

theorem getLastI_mem (l : List Int) (h : l ≠ []) : l.getLastI ∈ l := by
  cases hl : l.getLast? with
  | none => exact absurd (List.getLast?_eq_none_iff.mp hl) h
  | some a =>
    rw [List.getLastI_eq_getLast?, hl]
    exact List.mem_of_mem_getLast? hl

theorem headI_le_of_mem (l : List Int) (hs : l.Sorted (· ≤ ·)) (x : Int)
    (hx : x ∈ l) : l.headI ≤ x := by
  cases l with
  | nil => cases hx
  | cons a t =>
    rcases List.mem_cons.mp hx with rfl | hx
    · exact le_refl x
    · exact (List.sorted_cons.mp hs).1 x hx

theorem le_getLastI_of_mem (l : List Int) (hs : l.Sorted (· ≤ ·)) (x : Int)
    (hx : x ∈ l) : x ≤ l.getLastI := by
  induction l with
  | nil => cases hx
  | cons a t ih =>
    cases t with
    | nil =>
      rcases List.mem_cons.mp hx with rfl | hx
      · exact le_refl x
      · cases hx
    | cons b t2 =>
      have hgl : (a :: b :: t2).getLastI = (b :: t2).getLastI := by
        rw [List.getLastI_eq_getLast?, List.getLastI_eq_getLast?]
        rfl
      rw [hgl]
      rcases List.mem_cons.mp hx with rfl | hx
      · exact le_trans ((List.sorted_cons.mp hs).1 _ (getLastI_mem (b :: t2) (by simp)))
          (le_refl _)
      · exact ih (List.sorted_cons.mp hs).2 hx

theorem headI_le_getLastI (l : List Int) (hs : l.Sorted (· ≤ ·)) (h : l ≠ []) :
    l.headI ≤ l.getLastI := by
  cases l with
  | nil => exact absurd rfl h
  | cons a t => exact le_getLastI_of_mem _ hs _ (List.mem_cons_self a t)

/-! ### The chunk decomposition produced by the segmenter scan -/

/-- `chunks` is the decomposition of `events` into the contiguous runs the scan
groups into `blocks`: the runs concatenate back to the input, none is empty,
each block summarizes its run, adjacent events inside a run are closer than
`gap`, and consecutive runs are separated by at least `gap`. -/
def ChunksOK (gap : Int) (events : List Int) (blocks : List Block)
    (chunks : List (List Int)) : Prop :=
  chunks.flatten = events ∧
  (∀ ch ∈ chunks, ch ≠ []) ∧
  blocks = chunks.map blockOf ∧
  (∀ ch ∈ chunks, List.Chain' (fun a b => b - a < gap) ch) ∧
  List.Chain' (fun ch1 ch2 => ch1.getLastI + gap ≤ ch2.headI) chunks

theorem rawBlocksAux_chunks (gap : Int) :
    ∀ (l cur : List Int), cur ≠ [] →
      List.Chain' (fun a b => b - a < gap) cur →
      ∃ chunks tail,
        ChunksOK gap (cur ++ l)
          (rawBlocksAux gap cur.headI cur.getLastI cur.length l) chunks ∧
        chunks = (cur ++ tail) :: chunks.tail := by
  intro l
  induction l with
  | nil =>
    intro cur hne hchain
    refine ⟨[cur], [], ⟨by simp, ?_, by simp [rawBlocksAux, blockOf], ?_, ?_⟩, by simp⟩
    · intro ch hch
      rcases List.mem_singleton.mp hch with rfl
      exact hne
    · intro ch hch
      rcases List.mem_singleton.mp hch with rfl
      exact hchain
    · exact List.chain'_singleton _
  | cons ts rest ih =>
    intro cur hne hchain
    by_cases hgap : gap ≤ ts - cur.getLastI
    · obtain ⟨chunks', tail', hok', hhead'⟩ := ih [ts] (by simp) (List.chain'_singleton _)
      obtain ⟨hjoin', hne', hblocks', hchain', hsep'⟩ := hok'
      refine ⟨cur :: chunks', [], ⟨?_, ?_, ?_, ?_, ?_⟩, by simp⟩
      · simpa using hjoin'
      · intro ch hch
        rcases List.mem_cons.mp hch with rfl | hch
        · exact hne
        · exact hne' ch hch
      · rw [show rawBlocksAux gap cur.headI cur.getLastI cur.length (ts :: rest) =
            ⟨cur.headI, cur.getLastI, cur.length⟩ :: rawBlocksAux gap ts ts 1 rest by
          simp only [rawBlocksAux]
          rw [if_pos hgap]]
        rw [List.map_cons]
        refine congrArg (blockOf cur :: ·) ?_
        simpa using hblocks'
      · intro ch hch
        rcases List.mem_cons.mp hch with rfl | hch
        · exact hchain
        · exact hchain' ch hch
      · rw [List.chain'_cons']
        refine ⟨?_, hsep'⟩
        intro ch0 hch0
        rw [hhead'] at hch0
        have hch0' : ts :: tail' = ch0 := by simpa using hch0
        subst hch0'
        show cur.getLastI + gap ≤ ts
        omega
    · have hchain2 : List.Chain' (fun a b => b - a < gap) (cur ++ [ts]) := by
        refine List.Chain'.append hchain (List.chain'_singleton _) ?_
        intro x hx y hy
        have hx' : cur.getLastI = x := by
          rw [List.getLastI_eq_getLast?, show cur.getLast? = some x from hx]
        have hy' : ts = y := by simpa using hy
        subst hy'
        rw [← hx']
        omega
      obtain ⟨chunks', tail', hok', hhead'⟩ := ih (cur ++ [ts]) (by simp) hchain2
      obtain ⟨hjoin', hne', hblocks', hchain', hsep'⟩ := hok'
      refine ⟨chunks', [ts] ++ tail', ⟨?_, hne', ?_, hchain', hsep'⟩, ?_⟩
      · rw [hjoin']
        simp
      · rw [show rawBlocksAux gap cur.headI cur.getLastI cur.length (ts :: rest) =
            rawBlocksAux gap cur.headI ts (cur.length + 1) rest by
          simp only [rawBlocksAux]
          rw [if_neg hgap]]
        rw [headI_append_of_ne_nil cur [ts] hne, getLastI_concat cur ts] at hblocks'
        simpa using hblocks'
      · rw [hhead']
        simp

theorem rawBlocks_chunks (gap : Int) (events : List Int) :
    ∃ chunks, ChunksOK gap events (rawBlocks gap events) chunks := by
  cases events with
  | nil =>
    refine ⟨[], ?_⟩
    unfold ChunksOK
    refine ⟨by simp, ?_, by simp [rawBlocks], ?_, List.chain'_nil⟩
    · intro ch hch; cases hch
    · intro ch hch; cases hch
  | cons e rest =>
    obtain ⟨chunks, tail, hok, _⟩ :=
      rawBlocksAux_chunks gap rest [e] (by simp) (List.chain'_singleton _)
    exact ⟨chunks, hok⟩

theorem get_congr_index (l : List Int) (i j : Nat) (hi : i < l.length)
    (hj : j < l.length) (h : i = j) : l.get ⟨i, hi⟩ = l.get ⟨j, hj⟩ := by
  subst h
  rfl

theorem headI_eq_get (l : List Int) (h : 0 < l.length) : l.headI = l.get ⟨0, h⟩ := by
  cases l with
  | nil => simp at h
  | cons a t => rfl

theorem getLastI_eq_get (l : List Int) (h : 0 < l.length) (hi : l.length - 1 < l.length) :
    l.getLastI = l.get ⟨l.length - 1, hi⟩ := by
  have hne : l ≠ [] := by
    cases l with
    | nil => simp at h
    | cons a t => simp
  rw [List.getLastI_eq_getLast?, List.getLast?_eq_getLast l hne]
  show l.getLast hne = _
  rw [List.getLast_eq_get l hne]

theorem chunk_sublist (chunks : List (List Int)) (ch : List Int) (hch : ch ∈ chunks) :
    List.Sublist ch chunks.flatten := by
  rcases List.append_of_mem hch with ⟨s, t, rfl⟩
  have h1 : (s ++ ch :: t).flatten = s.flatten ++ (ch ++ t.flatten) := by simp
  rw [h1]
  exact (List.sublist_append_left ch t.flatten).trans (List.sublist_append_right _ _)

theorem chunk_sorted (chunks : List (List Int)) (ch : List Int) (hch : ch ∈ chunks)
    (hs : chunks.flatten.Sorted (· ≤ ·)) : ch.Sorted (· ≤ ·) :=
  List.Pairwise.sublist (chunk_sublist chunks ch hch) hs

/-- Two adjacent events of the flattened chunk list that are at least `gap`
apart cannot sit inside one chunk (adjacent events of a chunk are closer than
`gap`), so the first ends a chunk and the second begins another. -/
theorem adjacent_split (gap : Int) :
    ∀ (chunks : List (List Int)),
      (∀ ch ∈ chunks, ch ≠ []) →
      (∀ ch ∈ chunks, List.Chain' (fun a b => b - a < gap) ch) →
      ∀ (i : Nat) (hi : i + 1 < chunks.flatten.length),
        gap ≤ chunks.flatten.get ⟨i + 1, hi⟩ -
          chunks.flatten.get ⟨i, Nat.lt_of_succ_lt hi⟩ →
        ∃ ch1 ch2, ch1 ∈ chunks ∧ ch2 ∈ chunks ∧
          chunks.flatten.get ⟨i, Nat.lt_of_succ_lt hi⟩ = ch1.getLastI ∧
          chunks.flatten.get ⟨i + 1, hi⟩ = ch2.headI := by
  intro chunks
  induction chunks with
  | nil =>
    intro _ _ i hi
    simp at hi
  | cons ch rest ih =>
    intro hne hchain i hi hdiff
    have hflatlen : (ch :: rest).flatten.length = ch.length + rest.flatten.length := by
      simp
    by_cases hlt : i + 1 < ch.length
    · exfalso
      have hlt0 : i < ch.length := Nat.lt_of_succ_lt hlt
      have hc := hchain ch (List.mem_cons_self _ _)
      have hrel := List.chain'_iff_get.mp hc i (by omega)
      have e1 : (ch :: rest).flatten.get ⟨i, Nat.lt_of_succ_lt hi⟩ =
          ch.get ⟨i, hlt0⟩ := List.get_append i hlt0
      have e2 : (ch :: rest).flatten.get ⟨i + 1, hi⟩ = ch.get ⟨i + 1, hlt⟩ :=
        List.get_append (i + 1) hlt
      rw [e1, e2] at hdiff
      omega
    · by_cases heq : i + 1 = ch.length
      · cases rest with
        | nil =>
          exfalso
          have hlone : ((ch :: ([] : List (List Int))).flatten).length = ch.length := by
            simp
          omega
        | cons ch2 rest2 =>
          have hchne := hne ch (List.mem_cons_self _ _)
          have hlen : 0 < ch.length := List.length_pos.mpr hchne
          have hch2ne := hne ch2 (by simp)
          have hch2len : 0 < ch2.length := List.length_pos.mpr hch2ne
          have hflatlen2 : (ch :: ch2 :: rest2).flatten.length =
              ch.length + (ch2 :: rest2).flatten.length := by simp
          have hlt0 : i < ch.length := by omega
          have hpred : ch.length - 1 < ch.length := by omega
          have hge2 : ch.length ≤ i + 1 := by omega
          have hrem : i + 1 - ch.length < (ch2 :: rest2).flatten.length := by omega
          have h0 : 0 < ((ch2 :: rest2) : List (List Int)).flatten.length := by
            simp
            omega
          refine ⟨ch, ch2, List.mem_cons_self _ _,
            List.mem_cons_of_mem _ (List.mem_cons_self _ _), ?_, ?_⟩
          · have e1 : (ch :: ch2 :: rest2).flatten.get ⟨i, Nat.lt_of_succ_lt hi⟩ =
                ch.get ⟨i, hlt0⟩ := List.get_append i hlt0
            rw [e1, getLastI_eq_get ch hlen hpred]
            exact get_congr_index ch i (ch.length - 1) hlt0 hpred (by omega)
          · have e2 : (ch :: ch2 :: rest2).flatten.get ⟨i + 1, hi⟩ =
                ((ch2 :: rest2) : List (List Int)).flatten.get
                  ⟨i + 1 - ch.length, hrem⟩ :=
              List.get_append_right ch (ch2 :: rest2).flatten hge2
            rw [e2, get_congr_index ((ch2 :: rest2) : List (List Int)).flatten
              (i + 1 - ch.length) 0 hrem h0 (by omega), headI_eq_get ch2 hch2len]
            exact List.get_append 0 hch2len
      · have hge : ch.length ≤ i := by omega
        have hi2 : i - ch.length + 1 < rest.flatten.length := by omega
        have hrem1 : i - ch.length < rest.flatten.length := by omega
        have hrem2 : i + 1 - ch.length < rest.flatten.length := by omega
        have hne2 : ∀ c ∈ rest, c ≠ [] := fun c hc => hne c (List.mem_cons_of_mem _ hc)
        have hchain2 : ∀ c ∈ rest, List.Chain' (fun a b => b - a < gap) c :=
          fun c hc => hchain c (List.mem_cons_of_mem _ hc)
        have e1 : (ch :: rest).flatten.get ⟨i, Nat.lt_of_succ_lt hi⟩ =
            rest.flatten.get ⟨i - ch.length, hrem1⟩ :=
          List.get_append_right ch rest.flatten hge
        have e2 : (ch :: rest).flatten.get ⟨i + 1, hi⟩ =
            rest.flatten.get ⟨i + 1 - ch.length, hrem2⟩ :=
          List.get_append_right ch rest.flatten (by omega)
        have e2' : rest.flatten.get ⟨i + 1 - ch.length, hrem2⟩ =
            rest.flatten.get ⟨i - ch.length + 1, hi2⟩ :=
          get_congr_index _ _ _ _ _ (by omega)
        have hda : gap ≤ rest.flatten.get ⟨i - ch.length + 1, hi2⟩ -
            rest.flatten.get ⟨i - ch.length, Nat.lt_of_succ_lt hi2⟩ := by
          rw [e1, e2, e2'] at hdiff
          exact hdiff
        obtain ⟨ch1, ch2, h1, h2, f1, f2⟩ := ih hne2 hchain2 (i - ch.length) hi2 hda
        refine ⟨ch1, ch2, List.mem_cons_of_mem _ h1, List.mem_cons_of_mem _ h2, ?_, ?_⟩
        · rw [e1]
          exact f1
        · rw [e2, e2']
          exact f2

/-! ### C5: the inclusive gap tie-break -/

/-- C5 (confirmed): in a sorted event sequence, two consecutive events exactly
`gapThreshold` minutes apart land in two different raw blocks (each in a kept
or dropped block of the segmenter): the comparison `>=` is inclusive, so a gap
equal to the threshold starts a new block. -/
theorem build_blocks_tiebreak (events : List Int) (gap_minutes : Int)
    (min_queries : Nat) (hg : 0 < gap_minutes) (hs : events.Sorted (· ≤ ·))
    (i : Nat) (hi : i + 1 < events.length)
    (hdiff : events.get ⟨i + 1, hi⟩ - events.get ⟨i, Nat.lt_of_succ_lt hi⟩ =
      gap_minutes * (usPerMinute : Int)) :
    ∃ b1 b2,
      (b1 ∈ (build_blocks events gap_minutes min_queries).1 ∨
        b1 ∈ (build_blocks events gap_minutes min_queries).2) ∧
      (b2 ∈ (build_blocks events gap_minutes min_queries).1 ∨
        b2 ∈ (build_blocks events gap_minutes min_queries).2) ∧
      b1 ≠ b2 ∧
      b1.start ≤ events.get ⟨i, Nat.lt_of_succ_lt hi⟩ ∧
      events.get ⟨i, Nat.lt_of_succ_lt hi⟩ ≤ b1.stop ∧
      b2.start ≤ events.get ⟨i + 1, hi⟩ ∧ events.get ⟨i + 1, hi⟩ ≤ b2.stop := by
  have hgap0 : 0 < gap_minutes * (usPerMinute : Int) := by
    apply mul_pos hg
    show (0 : Int) < ((60000000 : Nat) : Int)
    norm_num
  obtain ⟨chunks, hjoin, hnech, hblocks, hchainch, hsep⟩ :=
    rawBlocks_chunks (gap_minutes * (usPerMinute : Int)) events
  subst hjoin
  have hmem_split : ∀ b ∈ rawBlocks (gap_minutes * (usPerMinute : Int)) chunks.flatten,
      b ∈ (build_blocks chunks.flatten gap_minutes min_queries).1 ∨
        b ∈ (build_blocks chunks.flatten gap_minutes min_queries).2 := by
    intro b hb
    by_cases hc : min_queries ≤ b.count
    · exact Or.inl (List.mem_filter.mpr ⟨hb, by simp [hc]⟩)
    · exact Or.inr (List.mem_filter.mpr ⟨hb, by simp [Nat.lt_of_not_le hc]⟩)
  obtain ⟨ch1, ch2, hch1, hch2, e1, e2⟩ :=
    adjacent_split (gap_minutes * (usPerMinute : Int)) chunks hnech hchainch i hi
      (le_of_eq hdiff.symm)
  have hch1ne := hnech ch1 hch1
  have hch2ne := hnech ch2 hch2
  have hs1 := chunk_sorted chunks ch1 hch1 hs
  have hs2 := chunk_sorted chunks ch2 hch2 hs
  have hb1mem : blockOf ch1 ∈ rawBlocks (gap_minutes * (usPerMinute : Int)) chunks.flatten := by
    rw [hblocks]
    exact List.mem_map_of_mem blockOf hch1
  have hb2mem : blockOf ch2 ∈ rawBlocks (gap_minutes * (usPerMinute : Int)) chunks.flatten := by
    rw [hblocks]
    exact List.mem_map_of_mem blockOf hch2
  refine ⟨blockOf ch1, blockOf ch2, hmem_split _ hb1mem, hmem_split _ hb2mem, ?_, ?_, ?_, ?_, ?_⟩
  · intro heq
    have hstop : (blockOf ch1).stop = (blockOf ch2).stop := congrArg Block.stop heq
    have h1 : (blockOf ch1).stop = chunks.flatten.get ⟨i, Nat.lt_of_succ_lt hi⟩ :=
      e1.symm
    have h2 : (blockOf ch2).stop = ch2.getLastI := rfl
    have h3 : ch2.headI ≤ ch2.getLastI := headI_le_getLastI ch2 hs2 hch2ne
    rw [← e2] at h3
    omega
  · rw [e1]
    exact headI_le_getLastI ch1 hs1 hch1ne
  · rw [e1]
    exact le_refl _
  · rw [e2]
    exact le_refl _
  · rw [e2]
    exact headI_le_getLastI ch2 hs2 hch2ne

/-- Witness for C5: two events exactly five minutes apart split into two
singleton blocks. -/
theorem build_blocks_tiebreak_witness :
    0 < (5 : Int) ∧ List.Sorted (· ≤ ·) [(0 : Int), 300000000] ∧
      (∃ b1 b2,
        (b1 ∈ (build_blocks [(0 : Int), 300000000] 5 1).1 ∨
          b1 ∈ (build_blocks [(0 : Int), 300000000] 5 1).2) ∧
        (b2 ∈ (build_blocks [(0 : Int), 300000000] 5 1).1 ∨
          b2 ∈ (build_blocks [(0 : Int), 300000000] 5 1).2) ∧
        b1 ≠ b2 ∧
        b1.start ≤ ([(0 : Int), 300000000].get ⟨0, by decide⟩) ∧
        ([(0 : Int), 300000000].get ⟨0, by decide⟩) ≤ b1.stop ∧
        b2.start ≤ ([(0 : Int), 300000000].get ⟨1, by decide⟩) ∧
        ([(0 : Int), 300000000].get ⟨1, by decide⟩) ≤ b2.stop) :=
  ⟨by decide, by decide,
    build_blocks_tiebreak [(0 : Int), 300000000] 5 1 (by decide) (by decide) 0
      (by decide) (by decide)⟩

/-! ### C7: the gap invariant -/

/-- For a sorted input, the events falling inside one block's `[start, stop]`
interval are exactly that block's chunk: every earlier chunk ends at least
`gap` before the block starts and every later chunk begins at least `gap`
after it ends. -/
theorem filter_block_eq_chunk (gap : Int) (hg : 0 < gap)
    (chunks : List (List Int)) (hs : chunks.flatten.Sorted (· ≤ ·))
    (hne : ∀ ch ∈ chunks, ch ≠ [])
    (hsep : List.Chain' (fun c1 c2 => c1.getLastI + gap ≤ c2.headI) chunks)
    (ch : List Int) (hch : ch ∈ chunks) :
    chunks.flatten.filter
      (fun ts => (blockOf ch).start ≤ ts && ts ≤ (blockOf ch).stop) = ch := by
  rcases List.append_of_mem hch with ⟨s, t, hchunks⟩
  subst hchunks
  have hflat : ((s ++ ch :: t).flatten) = s.flatten ++ (ch ++ t.flatten) := by simp
  rw [hflat] at hs ⊢
  rw [List.filter_append, List.filter_append]
  have hss : s.flatten.Sorted (· ≤ ·) :=
    List.Pairwise.sublist (List.sublist_append_left _ _) hs
  have hsc : ch.Sorted (· ≤ ·) :=
    List.Pairwise.sublist ((List.sublist_append_left _ _).trans
      (List.sublist_append_right _ _)) hs
  have hst : t.flatten.Sorted (· ≤ ·) :=
    List.Pairwise.sublist ((List.sublist_append_right _ _).trans
      (List.sublist_append_right _ _)) hs
  have hA : s.flatten.filter
      (fun ts => (blockOf ch).start ≤ ts && ts ≤ (blockOf ch).stop) = [] := by
    rw [List.filter_eq_nil_iff]
    intro x hx
    rcases List.eq_nil_or_concat s with rfl | ⟨s', chL, rfl⟩
    · cases hx
    · rw [List.concat_eq_append] at hss hsep hne hx
      have hchLmem : chL ∈ s' ++ [chL] ++ ch :: t := by simp
      have hchLne : chL ≠ [] := hne chL hchLmem
      have hxle : x ≤ (s' ++ [chL]).flatten.getLastI := le_getLastI_of_mem _ hss x hx
      have hflatL : ((s' ++ [chL]) : List (List Int)).flatten =
          s'.flatten ++ chL := by simp
      rw [hflatL, getLastI_append_of_ne_nil _ _ hchLne] at hxle
      have hsepL : chL.getLastI + gap ≤ ch.headI := by
        rcases (List.chain'_append.mp hsep) with ⟨_, _, hcross⟩
        apply hcross chL _ ch rfl
        rw [List.getLast?_concat]
        rfl
      have hxlt : x < ch.headI := by omega
      simp only [Bool.and_eq_true, decide_eq_true_eq, not_and]
      intro hstart
      exfalso
      have : ch.headI ≤ x := hstart
      omega
  have hB : ch.filter
      (fun ts => (blockOf ch).start ≤ ts && ts ≤ (blockOf ch).stop) = ch := by
    rw [List.filter_eq_self]
    intro x hx
    have h1 : ch.headI ≤ x := headI_le_of_mem ch hsc x hx
    have h2 : x ≤ ch.getLastI := le_getLastI_of_mem ch hsc x hx
    simp only [Bool.and_eq_true, decide_eq_true_eq]
    exact ⟨h1, h2⟩
  have hC : t.flatten.filter
      (fun ts => (blockOf ch).start ≤ ts && ts ≤ (blockOf ch).stop) = [] := by
    rw [List.filter_eq_nil_iff]
    intro x hx
    cases t with
    | nil => cases hx
    | cons chR t' =>
      have hchRne : chR ≠ [] := hne chR (by simp)
      have hsepR : ch.getLastI + gap ≤ chR.headI := by
        rcases (List.chain'_append.mp hsep) with ⟨_, hright, _⟩
        exact (List.chain'_cons.mp hright).1
      have hhead : ((chR :: t') : List (List Int)).flatten.headI = chR.headI := by
        show (chR ++ t'.flatten).headI = chR.headI
        exact headI_append_of_ne_nil chR t'.flatten hchRne
      have hxge : ((chR :: t') : List (List Int)).flatten.headI ≤ x :=
        headI_le_of_mem _ hst x hx
      rw [hhead] at hxge
      simp only [Bool.and_eq_true, decide_eq_true_eq, not_and]
      intro _
      show ¬ x ≤ ch.getLastI
      omega
  rw [hA, hB, hC]
  simp

/-- C7 (confirmed): for sorted events, consecutive raw blocks in emission
order are at least `gapThreshold` apart (`B2.start - B1.stop ≥ gap`), and
inside any single block's `[start, stop]` span adjacent events are strictly
closer than the threshold. -/
theorem build_blocks_gap_invariant (events : List Int) (gap_minutes : Int)
    (hg : 0 < gap_minutes) (hs : events.Sorted (· ≤ ·)) :
    List.Chain' (fun b1 b2 => gap_minutes * (usPerMinute : Int) ≤ b2.start - b1.stop)
      (rawBlocks (gap_minutes * (usPerMinute : Int)) events) ∧
    ∀ b ∈ rawBlocks (gap_minutes * (usPerMinute : Int)) events,
      List.Chain' (fun a c => c - a < gap_minutes * (usPerMinute : Int))
        (events.filter fun ts => b.start ≤ ts && ts ≤ b.stop) := by
  have hgap0 : 0 < gap_minutes * (usPerMinute : Int) := by
    apply mul_pos hg
    show (0 : Int) < ((60000000 : Nat) : Int)
    norm_num
  obtain ⟨chunks, hjoin, hnech, hblocks, hchainch, hsep⟩ :=
    rawBlocks_chunks (gap_minutes * (usPerMinute : Int)) events
  subst hjoin
  constructor
  · rw [hblocks, List.chain'_map]
    refine List.Chain'.imp ?_ hsep
    intro c1 c2 h
    show gap_minutes * (usPerMinute : Int) ≤ c2.headI - c1.getLastI
    omega
  · intro b hb
    rw [hblocks] at hb
    rcases List.mem_map.mp hb with ⟨ch, hch, rfl⟩
    rw [filter_block_eq_chunk (gap_minutes * (usPerMinute : Int)) hgap0 chunks hs
      hnech hsep ch hch]
    exact hchainch ch hch

/-- Witness for C7 at two events five minutes apart. -/
theorem build_blocks_gap_invariant_witness :
    0 < (5 : Int) ∧ List.Sorted (· ≤ ·) [(0 : Int), 300000000] ∧
      (List.Chain' (fun b1 b2 => 5 * (usPerMinute : Int) ≤ b2.start - b1.stop)
        (rawBlocks (5 * (usPerMinute : Int)) [(0 : Int), 300000000]) ∧
      ∀ b ∈ rawBlocks (5 * (usPerMinute : Int)) [(0 : Int), 300000000],
        List.Chain' (fun a c => c - a < 5 * (usPerMinute : Int))
          ([(0 : Int), 300000000].filter fun ts => b.start ≤ ts && ts ≤ b.stop)) :=
  ⟨by decide, by decide,
    build_blocks_gap_invariant [(0 : Int), 300000000] 5 (by decide) (by decide)⟩

/-! ### C6: the partition property -/

theorem chain'_and_bounds (S : Block → Block → Prop) (P : Block → Prop) :
    ∀ (l : List Block), List.Chain' S l → (∀ x ∈ l, P x) →
      List.Chain' (fun a b => S a b ∧ P a ∧ P b) l := by
  intro l
  induction l with
  | nil =>
    intro _ _
    exact List.chain'_nil
  | cons a t ih =>
    intro hc hp
    rcases List.chain'_cons'.mp hc with ⟨hhead, htail⟩
    refine List.chain'_cons'.mpr
      ⟨?_, ih htail fun x hx => hp x (List.mem_cons_of_mem _ hx)⟩
    intro b hb
    refine ⟨hhead b hb, hp a (List.mem_cons_self _ _), hp b ?_⟩
    cases t with
    | nil => cases hb
    | cons c t2 =>
      have hcb : c = b := Option.some.inj hb
      subst hcb
      exact List.mem_cons_of_mem _ (List.mem_cons_self _ _)

theorem blocks_pairwise (l : List Block)
    (hc : List.Chain' (fun b1 b2 => b1.stop < b2.start) l)
    (hb : ∀ x ∈ l, x.start ≤ x.stop) :
    List.Pairwise (fun b1 b2 => b1.stop < b2.start) l := by
  have h2 := chain'_and_bounds _ _ l hc hb
  haveI : IsTrans Block (fun b1 b2 =>
      b1.stop < b2.start ∧ (b1.start ≤ b1.stop ∧ b2.start ≤ b2.stop)) := by
    refine ⟨fun a b c hab hbc => ?_⟩
    obtain ⟨h1, h2a, h2b⟩ := hab
    obtain ⟨h3, h4a, h4b⟩ := hbc
    exact ⟨by omega, h2a, h4b⟩
  have hp := List.chain'_iff_pairwise.mp h2
  exact hp.imp fun hab => hab.1

/-- C6 (confirmed): for sorted events and a positive gap the raw blocks of the
segmenter partition the input — every event lies in exactly one raw block's
`[start, stop]` range, block counts sum to the event count, blocks are in
strict time order — the kept/dropped lists are sublists of the raw list whose
merge is a permutation of it (no block re-merged or lost), and the empty input
yields two empty lists. -/
theorem build_blocks_partition (events : List Int) (gap_minutes : Int)
    (min_queries : Nat) (hg : 0 < gap_minutes) (hs : events.Sorted (· ≤ ·)) :
    (∀ ts ∈ events, ∃! b, b ∈ rawBlocks (gap_minutes * (usPerMinute : Int)) events ∧
        b.start ≤ ts ∧ ts ≤ b.stop) ∧
    ((rawBlocks (gap_minutes * (usPerMinute : Int)) events).map Block.count).sum =
      events.length ∧
    List.Chain' (fun b1 b2 => b1.stop < b2.start)
      (rawBlocks (gap_minutes * (usPerMinute : Int)) events) ∧
    List.Sublist (build_blocks events gap_minutes min_queries).1
      (rawBlocks (gap_minutes * (usPerMinute : Int)) events) ∧
    List.Sublist (build_blocks events gap_minutes min_queries).2
      (rawBlocks (gap_minutes * (usPerMinute : Int)) events) ∧
    ((build_blocks events gap_minutes min_queries).1 ++
        (build_blocks events gap_minutes min_queries).2).Perm
      (rawBlocks (gap_minutes * (usPerMinute : Int)) events) ∧
    build_blocks [] gap_minutes min_queries = ([], []) := by
  have hgap0 : 0 < gap_minutes * (usPerMinute : Int) := by
    apply mul_pos hg
    show (0 : Int) < ((60000000 : Nat) : Int)
    norm_num
  obtain ⟨chunks, hjoin, hnech, hblocks, hchainch, hsep⟩ :=
    rawBlocks_chunks (gap_minutes * (usPerMinute : Int)) events
  subst hjoin
  have hbounds : ∀ b ∈ rawBlocks (gap_minutes * (usPerMinute : Int)) chunks.flatten,
      b.start ≤ b.stop := by
    intro b hb
    rw [hblocks] at hb
    rcases List.mem_map.mp hb with ⟨ch, hch, rfl⟩
    exact headI_le_getLastI ch (chunk_sorted chunks ch hch hs) (hnech ch hch)
  have hchain : List.Chain' (fun b1 b2 => b1.stop < b2.start)
      (rawBlocks (gap_minutes * (usPerMinute : Int)) chunks.flatten) := by
    rw [hblocks, List.chain'_map]
    refine List.Chain'.imp ?_ hsep
    intro c1 c2 h
    show (blockOf c1).stop < (blockOf c2).start
    show c1.getLastI < c2.headI
    omega
  have hpair := blocks_pairwise _ hchain hbounds
  have hpair2 : List.Pairwise
      (fun b1 b2 : Block => b1.stop < b2.start ∨ b2.stop < b1.start)
      (rawBlocks (gap_minutes * (usPerMinute : Int)) chunks.flatten) :=
    hpair.imp fun h => Or.inl h
  have hsym : Symmetric (fun b1 b2 : Block =>
      b1.stop < b2.start ∨ b2.stop < b1.start) :=
    fun a b h => h.elim Or.inr Or.inl
  refine ⟨?_, ?_, hchain, ?_, ?_, ?_, rfl⟩
  · intro ts hts
    rcases List.mem_flatten.mp hts with ⟨ch, hch, htsch⟩
    have hsc := chunk_sorted chunks ch hch hs
    have hmemb : blockOf ch ∈ rawBlocks (gap_minutes * (usPerMinute : Int))
        chunks.flatten := by
      rw [hblocks]
      exact List.mem_map_of_mem _ hch
    refine ⟨blockOf ch, ⟨hmemb, headI_le_of_mem ch hsc ts htsch,
      le_getLastI_of_mem ch hsc ts htsch⟩, ?_⟩
    rintro b' ⟨hb', hle1, hle2⟩
    by_contra hne'
    have hor := List.Pairwise.forall hsym hpair2 hb' hmemb hne'
    have hh1 : (blockOf ch).start ≤ ts := headI_le_of_mem ch hsc ts htsch
    have hh2 : ts ≤ (blockOf ch).stop := le_getLastI_of_mem ch hsc ts htsch
    rcases hor with h | h <;> omega
  · rw [hblocks, List.map_map]
    have hcomp : Block.count ∘ blockOf = List.length := funext fun ch => rfl
    rw [hcomp, ← List.length_flatten]
  · exact List.filter_sublist _
  · exact List.filter_sublist _
  · have hfun : (fun b : Block => decide (b.count < min_queries)) =
        (fun b : Block => !(decide (min_queries ≤ b.count))) := by
      funext b
      by_cases h : min_queries ≤ b.count
      · simp [h, Nat.not_lt.mpr h]
      · simp [h, Nat.lt_of_not_le h]
    show ((rawBlocks (gap_minutes * (usPerMinute : Int)) chunks.flatten).filter _ ++
      (rawBlocks (gap_minutes * (usPerMinute : Int)) chunks.flatten).filter _).Perm _
    rw [hfun]
    exact List.filter_append_perm _ _

/-- Witness for C6 at two events five minutes apart. -/
theorem build_blocks_partition_witness :
    0 < (5 : Int) ∧ List.Sorted (· ≤ ·) [(0 : Int), 300000000] ∧
      ((∀ ts ∈ [(0 : Int), 300000000],
        ∃! b, b ∈ rawBlocks (5 * (usPerMinute : Int)) [(0 : Int), 300000000] ∧
          b.start ≤ ts ∧ ts ≤ b.stop) ∧
      ((rawBlocks (5 * (usPerMinute : Int)) [(0 : Int), 300000000]).map
        Block.count).sum = 2 ∧
      List.Chain' (fun b1 b2 => b1.stop < b2.start)
        (rawBlocks (5 * (usPerMinute : Int)) [(0 : Int), 300000000]) ∧
      List.Sublist (build_blocks [(0 : Int), 300000000] 5 1).1
        (rawBlocks (5 * (usPerMinute : Int)) [(0 : Int), 300000000]) ∧
      List.Sublist (build_blocks [(0 : Int), 300000000] 5 1).2
        (rawBlocks (5 * (usPerMinute : Int)) [(0 : Int), 300000000]) ∧
      ((build_blocks [(0 : Int), 300000000] 5 1).1 ++
          (build_blocks [(0 : Int), 300000000] 5 1).2).Perm
        (rawBlocks (5 * (usPerMinute : Int)) [(0 : Int), 300000000]) ∧
      build_blocks [] 5 1 = ([], [])) :=
  ⟨by decide, by decide,
    build_blocks_partition [(0 : Int), 300000000] 5 1 (by decide) (by decide)⟩

end AdguardActivity
